import Mathlib

set_option linter.unusedSectionVars false

/-!
Verification of the left-leaning red-black-tree sorted set
(`sortedset.go`).  The Go code is shallowly embedded: nodes become an
inductive type, in-place mutation becomes functional update, and the
iterator protocol (`iter.Seq`) becomes an explicitly state-threaded
yield function.  Go `int` is modelled as `Int`; the element type is any
linear order (the Go constraint `Comparable` admits exactly string and
integer types, all linearly ordered, with `==` agreeing with the order).

Every definition mirrors the corresponding Go function of
`src/sortedset.go`; `nil`-pointer dereferences that the Go code avoids
by call-site guards are given harmless default branches, marked
"unreachable" in comments.
-/

namespace Sortedset

/-- Embedding of Go `type node[E Comparable] struct`: a pointer that is
either `nil` or a vertex carrying `element`, the `red` flag and the two
child pointers. -/
inductive Node (E : Type) where
  | nil : Node E
  | node (element : E) (red : Bool) (left right : Node E) : Node E
deriving DecidableEq, Repr

namespace Node

variable {E : Type}

/-- Child accessor, `root.left` in Go (never dereferenced on `nil`). -/
def left : Node E → Node E
  | .nil => .nil
  | .node _ _ l _ => l

/-- Child accessor, `root.right` in Go (never dereferenced on `nil`). -/
def right : Node E → Node E
  | .nil => .nil
  | .node _ _ _ r => r

/-- The Go test `root == nil`. -/
def isNil : Node E → Bool
  | .nil => true
  | .node _ _ _ _ => false

/-- Field accessor `root.element`; the `default` branch is unreachable
because the Go code only reads `element` from non-nil pointers. -/
def elem [Inhabited E] : Node E → E
  | .nil => default
  | .node e _ _ _ => e

/-- Field update `root.red = b` (no-op on `nil`, never reached in Go). -/
def setRed : Node E → Bool → Node E
  | .nil, _ => .nil
  | .node e _ l r, b => .node e b l r

/-- Field update `root.left = t` (no-op on `nil`, never reached in Go). -/
def setLeft : Node E → Node E → Node E
  | .nil, _ => .nil
  | .node e c _ r, t => .node e c t r

/-- Field update `root.right = t` (no-op on `nil`, never reached in Go). -/
def setRight : Node E → Node E → Node E
  | .nil, _ => .nil
  | .node e c l _, t => .node e c l t

/-- Field update `root.element = x` (no-op on `nil`, never reached in Go). -/
def setElem : Node E → E → Node E
  | .nil, _ => .nil
  | .node _ c l r, x => .node x c l r

/-- Number of vertices; the termination measure for the recursive
insert/delete routines. -/
def size : Node E → Nat
  | .nil => 0
  | .node _ _ l r => size l + size r + 1

/-- In-order traversal as a list: the element sequence produced by the
Go iterator `All()`. -/
def toList : Node E → List E
  | .nil => []
  | .node e _ l r => toList l ++ e :: toList r

@[simp] theorem left_nil : (Node.nil : Node E).left = .nil := rfl

@[simp] theorem left_node (e : E) (c : Bool) (l r : Node E) :
    (Node.node e c l r).left = l := rfl

@[simp] theorem right_nil : (Node.nil : Node E).right = .nil := rfl

@[simp] theorem right_node (e : E) (c : Bool) (l r : Node E) :
    (Node.node e c l r).right = r := rfl

@[simp] theorem isNil_nil : (Node.nil : Node E).isNil = true := rfl

@[simp] theorem isNil_node (e : E) (c : Bool) (l r : Node E) :
    (Node.node e c l r).isNil = false := rfl

@[simp] theorem elem_node [Inhabited E] (e : E) (c : Bool) (l r : Node E) :
    (Node.node e c l r).elem = e := rfl

@[simp] theorem setRed_nil (b : Bool) : (Node.nil : Node E).setRed b = .nil := rfl

@[simp] theorem setRed_node (e : E) (c b : Bool) (l r : Node E) :
    (Node.node e c l r).setRed b = .node e b l r := rfl

@[simp] theorem setLeft_node (e : E) (c : Bool) (l r t : Node E) :
    (Node.node e c l r).setLeft t = .node e c t r := rfl

@[simp] theorem setRight_node (e : E) (c : Bool) (l r t : Node E) :
    (Node.node e c l r).setRight t = .node e c l t := rfl

@[simp] theorem setElem_node (e x : E) (c : Bool) (l r : Node E) :
    (Node.node e c l r).setElem x = .node x c l r := rfl

@[simp] theorem size_nil : (Node.nil : Node E).size = 0 := rfl

@[simp] theorem size_node (e : E) (c : Bool) (l r : Node E) :
    (Node.node e c l r).size = l.size + r.size + 1 := rfl

@[simp] theorem toList_nil : (Node.nil : Node E).toList = [] := rfl

@[simp] theorem toList_node (e : E) (c : Bool) (l r : Node E) :
    (Node.node e c l r).toList = l.toList ++ e :: r.toList := rfl

@[simp] theorem toList_setRed (t : Node E) (b : Bool) :
    (t.setRed b).toList = t.toList := by
  cases t <;> rfl

end Node

open Node

variable {E : Type}

/-- Go `isRed`: a pointer is red iff it is non-nil and its `red` flag is
set. -/
def isRed : Node E → Bool
  | .nil => false
  | .node _ c _ _ => c

@[simp] theorem isRed_nil : isRed (Node.nil : Node E) = false := rfl

@[simp] theorem isRed_node (e : E) (c : Bool) (l r : Node E) :
    isRed (Node.node e c l r) = c := rfl

/-- The guarded body `if child != nil { child.red = !child.red }` used
twice inside Go `colorFlip`. -/
def flipTop : Node E → Node E
  | .nil => .nil
  | .node e c l r => .node e (!c) l r

@[simp] theorem flipTop_nil : flipTop (Node.nil : Node E) = .nil := rfl

@[simp] theorem flipTop_node (e : E) (c : Bool) (l r : Node E) :
    flipTop (Node.node e c l r) = .node e (!c) l r := rfl

/-- Go `colorFlip`: invert the node's colour and the colour of each
non-nil child.  The `nil` branch is unreachable (all Go call sites pass
a non-nil node). -/
def colorFlip : Node E → Node E
  | .nil => .nil
  | .node e c l r => .node e (!c) (flipTop l) (flipTop r)

@[simp] theorem colorFlip_nil : colorFlip (Node.nil : Node E) = .nil := rfl

@[simp] theorem colorFlip_node (e : E) (c : Bool) (l r : Node E) :
    colorFlip (Node.node e c l r) = .node e (!c) (flipTop l) (flipTop r) := rfl

/-- Go `rotateLeft`: `x := root.right; root.right = x.left; x.left =
root; x.red = root.red; root.red = true; return x`.  The fallback arm is
unreachable: every call site guards with `isRed(root.right)`, so
`root.right` is a node. -/
def rotateLeft : Node E → Node E
  | .node e c l (.node xe _ xl xr) => .node xe c (.node e true l xl) xr
  | t => t

/-- Go `rotateRight`: symmetric to `rotateLeft`; every call site guards
with `isRed(root.left)`. -/
def rotateRight : Node E → Node E
  | .node e c (.node xe _ xl xr) r => .node xe c xl (.node e true xr r)
  | t => t

@[simp] theorem rotateLeft_node_node (e xe : E) (c xc : Bool) (l xl xr : Node E) :
    rotateLeft (Node.node e c l (Node.node xe xc xl xr)) =
      .node xe c (.node e true l xl) xr := rfl

@[simp] theorem rotateRight_node_node (e xe : E) (c xc : Bool) (xl xr r : Node E) :
    rotateRight (Node.node e c (Node.node xe xc xl xr) r) =
      .node xe c xl (.node e true xr r) := rfl

/-- Go `insertRotation`: left-rotate a lone red right child, then
right-rotate two reds in a row on the left. -/
def insertRotation (root : Node E) : Node E :=
  let root1 := if isRed root.right && !isRed root.left then rotateLeft root else root
  if isRed root1.left && isRed root1.left.left then rotateRight root1 else root1

/-- Go `fixUp`: the fix applied on the way out of every recursive
delete call. -/
def fixUp (root : Node E) : Node E :=
  let root1 := if isRed root.right then rotateLeft root else root
  let root2 := if isRed root1.left && isRed root1.left.left then rotateRight root1 else root1
  if isRed root2.left && isRed root2.right then colorFlip root2 else root2

/-- Go `moveRedLeft`: borrow a red link from the right sibling before
descending left during deletion. -/
def moveRedLeft (root : Node E) : Node E :=
  let root1 := colorFlip root
  if !root1.right.isNil && isRed root1.right.left then
    colorFlip (rotateLeft (root1.setRight (rotateRight root1.right)))
  else root1

/-- Go `moveRedRight`: borrow a red link from the left sibling before
descending right during deletion. -/
def moveRedRight (root : Node E) : Node E :=
  let root1 := colorFlip root
  if !root1.left.isNil && isRed root1.left.left then
    colorFlip (rotateRight root1)
  else root1

/-- Go `first`: follow left children to the minimum node of a (non-nil)
subtree. -/
def first : Node E → Node E
  | .nil => .nil
  | .node e c .nil r => .node e c .nil r
  | .node _ _ (.node le lc ll lr) _ => first (.node le lc ll lr)

@[simp] theorem size_flipTop (t : Node E) : (flipTop t).size = t.size := by
  cases t <;> rfl

@[simp] theorem size_colorFlip (t : Node E) : (colorFlip t).size = t.size := by
  cases t <;> simp [colorFlip]

@[simp] theorem size_rotateLeft (t : Node E) : (rotateLeft t).size = t.size := by
  cases t with
  | nil => rfl
  | node e c l r =>
    cases r with
    | nil => rfl
    | node xe xc xl xr => simp [rotateLeft]; omega

@[simp] theorem size_rotateRight (t : Node E) : (rotateRight t).size = t.size := by
  cases t with
  | nil => rfl
  | node e c l r =>
    cases l with
    | nil => rfl
    | node xe xc xl xr => simp [rotateRight]; omega

@[simp] theorem size_insertRotation (t : Node E) :
    (insertRotation t).size = t.size := by
  unfold insertRotation
  dsimp only
  split <;> (try dsimp only) <;> split <;> simp

@[simp] theorem size_fixUp (t : Node E) : (fixUp t).size = t.size := by
  unfold fixUp
  dsimp only
  split <;> (try dsimp only) <;> split <;> (try dsimp only) <;> split <;> simp

@[simp] theorem size_moveRedLeft (t : Node E) : (moveRedLeft t).size = t.size := by
  cases t with
  | nil => rfl
  | node e c l r =>
    unfold moveRedLeft
    dsimp only
    split <;> simp

@[simp] theorem size_moveRedRight (t : Node E) : (moveRedRight t).size = t.size := by
  cases t with
  | nil => rfl
  | node e c l r =>
    unfold moveRedRight
    dsimp only
    split <;> simp

@[simp] theorem toList_flipTop (t : Node E) : (flipTop t).toList = t.toList := by
  cases t <;> rfl

@[simp] theorem toList_colorFlip (t : Node E) : (colorFlip t).toList = t.toList := by
  cases t <;> simp [colorFlip]

@[simp] theorem toList_rotateLeft (t : Node E) : (rotateLeft t).toList = t.toList := by
  cases t with
  | nil => rfl
  | node e c l r =>
    cases r with
    | nil => rfl
    | node xe xc xl xr => simp [rotateLeft]

@[simp] theorem toList_rotateRight (t : Node E) : (rotateRight t).toList = t.toList := by
  cases t with
  | nil => rfl
  | node e c l r =>
    cases l with
    | nil => rfl
    | node xe xc xl xr => simp [rotateRight]

@[simp] theorem toList_insertRotation (t : Node E) :
    (insertRotation t).toList = t.toList := by
  unfold insertRotation
  dsimp only
  split <;> (try dsimp only) <;> split <;> simp

@[simp] theorem toList_fixUp (t : Node E) : (fixUp t).toList = t.toList := by
  unfold fixUp
  dsimp only
  split <;> (try dsimp only) <;> split <;> (try dsimp only) <;> split <;> simp

@[simp] theorem toList_moveRedLeft (t : Node E) :
    (moveRedLeft t).toList = t.toList := by
  cases t with
  | nil => rfl
  | node e c l r =>
    unfold moveRedLeft
    dsimp only
    split <;> simp

@[simp] theorem toList_moveRedRight (t : Node E) :
    (moveRedRight t).toList = t.toList := by
  cases t with
  | nil => rfl
  | node e c l r =>
    unfold moveRedRight
    dsimp only
    split <;> simp

/-- Go `insert` (method on `SortedSet`): recursive red-black insertion.
Matches the source line by line: create a red leaf at a nil position;
colour-flip a node with two red children before descending; descend by
strict comparison in both directions; apply `insertRotation` on the way
out.  The element is compared against `e`, which `colorFlip` does not
change. -/
def insert [LinearOrder E] (root : Node E) (element : E) : Node E × Bool :=
  match root with
  | .nil => (.node element true .nil .nil, true)
  | .node e c l r =>
    let root1 := if isRed l && isRed r then colorFlip (.node e c l r) else .node e c l r
    let res :=
      if element < e then
        let res := insert root1.left element
        (root1.setLeft res.1, res.2)
      else if e < element then
        let res := insert root1.right element
        (root1.setRight res.1, res.2)
      else (root1, false)
    (insertRotation res.1, res.2)
termination_by root.size
decreasing_by
  all_goals
    simp only [Node.size_node]
    split <;> simp <;> omega

/-- Modelled from the spec: the reference insertion of spec §4.1, which
applies the colour flip "on the way back up from each recursive call",
i.e. after the recursive call returns and before the rotation fix-up.
Identical to `insert` in every other respect. -/
def insertRef [LinearOrder E] (root : Node E) (element : E) : Node E × Bool :=
  match root with
  | .nil => (.node element true .nil .nil, true)
  | .node e c l r =>
    let res :=
      if element < e then
        let res := insertRef l element
        ((Node.node e c l r).setLeft res.1, res.2)
      else if e < element then
        let res := insertRef r element
        ((Node.node e c l r).setRight res.1, res.2)
      else (.node e c l r, false)
    let root1 := if isRed res.1.left && isRed res.1.right then colorFlip res.1 else res.1
    (insertRotation root1, res.2)

/-- The in-order element sequence produced by inserting `element`,
defined by the comparison path alone (node colours never influence it:
the rotations and flips of the insertion code all preserve the in-order
sequence). -/
def insListSpec [LinearOrder E] (element : E) : Node E → List E
  | .nil => [element]
  | .node e _ l r =>
    if element < e then insListSpec element l ++ e :: r.toList
    else if e < element then l.toList ++ e :: insListSpec element r
    else l.toList ++ e :: r.toList

/-- The `inserted` flag produced by inserting `element`, again defined
by the comparison path alone. -/
def insFlagSpec [LinearOrder E] (element : E) : Node E → Bool
  | .nil => true
  | .node e _ l r =>
    if element < e then insFlagSpec element l
    else if e < element then insFlagSpec element r
    else false

@[simp] theorem insListSpec_flipTop [LinearOrder E] (x : E) (t : Node E) :
    insListSpec x (flipTop t) = insListSpec x t := by
  cases t <;> rfl

@[simp] theorem insFlagSpec_flipTop [LinearOrder E] (x : E) (t : Node E) :
    insFlagSpec x (flipTop t) = insFlagSpec x t := by
  cases t <;> rfl

@[simp] theorem isNil_flipTop (t : Node E) : (flipTop t).isNil = t.isNil := by
  cases t <;> rfl

@[simp] theorem isNil_colorFlip (t : Node E) : (colorFlip t).isNil = t.isNil := by
  cases t <;> rfl

@[simp] theorem isNil_rotateLeft (t : Node E) : (rotateLeft t).isNil = t.isNil := by
  cases t with
  | nil => rfl
  | node e c l r => cases r <;> rfl

@[simp] theorem isNil_rotateRight (t : Node E) : (rotateRight t).isNil = t.isNil := by
  cases t with
  | nil => rfl
  | node e c l r => cases l <;> rfl

@[simp] theorem isNil_setRight (t u : Node E) : (t.setRight u).isNil = t.isNil := by
  cases t <;> rfl

@[simp] theorem isNil_setLeft (t u : Node E) : (t.setLeft u).isNil = t.isNil := by
  cases t <;> rfl

@[simp] theorem isNil_moveRedLeft (t : Node E) : (moveRedLeft t).isNil = t.isNil := by
  cases t with
  | nil => rfl
  | node e c l r =>
    unfold moveRedLeft
    dsimp only
    split <;> simp

@[simp] theorem isNil_moveRedRight (t : Node E) : (moveRedRight t).isNil = t.isNil := by
  cases t with
  | nil => rfl
  | node e c l r =>
    unfold moveRedRight
    dsimp only
    split <;> simp

@[simp] theorem isNil_insertRotation (t : Node E) :
    (insertRotation t).isNil = t.isNil := by
  unfold insertRotation
  dsimp only
  split <;> (try dsimp only) <;> split <;> simp

@[simp] theorem isNil_fixUp (t : Node E) : (fixUp t).isNil = t.isNil := by
  unfold fixUp
  dsimp only
  split <;> (try dsimp only) <;> split <;> (try dsimp only) <;> split <;> simp

theorem left_size_lt (t : Node E) (h : t.isNil = false) :
    t.left.size < t.size := by
  cases t with
  | nil => simp at h
  | node e c l r => simp; omega

theorem right_size_lt (t : Node E) (h : t.isNil = false) :
    t.right.size < t.size := by
  cases t with
  | nil => simp at h
  | node e c l r => simp; omega

/-- Go `deleteMinimum`: remove the minimum of a (non-nil) subtree,
borrowing a red link on the way down via `moveRedLeft` and repairing
with `fixUp` on the way out.  As in the source, a node whose left child
is nil is replaced by nil outright. -/
def deleteMinimum (root : Node E) : Node E :=
  match root with
  | .nil => .nil
  | .node e c l r =>
    if l.isNil then .nil
    else
      let root1 := if !isRed l && !isRed l.left then moveRedLeft (.node e c l r) else .node e c l r
      fixUp (root1.setLeft (deleteMinimum root1.left))
termination_by root.size
decreasing_by
  split
  · exact lt_of_lt_of_le (left_size_lt _ (by simp)) (by simp)
  · simp only [Node.left_node, Node.size_node]
    omega

mutual

/-- Go `delete_`: recursive deletion combining search and fix-up.  The
`nil` arm is unreachable (the wrapper and every recursive call site
guard against nil).  The Go control flow
`if element == root.element && root.right == nil { return nil, true };
if root.right != nil { root, deleted = deleteRight(root, element) };
return fixUp(root), deleted` is rendered by the three-way conditional
on `root1` below. -/
def delete_ [LinearOrder E] [Inhabited E] (root : Node E) (element : E) : Node E × Bool :=
  match root with
  | .nil => (.nil, false)
  | .node e c l r =>
    if element < e then
      if l.isNil then (fixUp (.node e c l r), false)
      else
        let root1 := if !isRed l && !isRed l.left then moveRedLeft (.node e c l r) else .node e c l r
        let res := delete_ root1.left element
        (fixUp (root1.setLeft res.1), res.2)
    else
      let root1 := if isRed l then rotateRight (.node e c l r) else .node e c l r
      if element = root1.elem ∧ root1.right = Node.nil then (.nil, true)
      else if root1.right.isNil then (fixUp root1, false)
      else
        let res := deleteRight root1 element
        (fixUp res.1, res.2)
termination_by (root.size, 1)
decreasing_by
  · simp_wf
    rw [Prod.lex_def]
    left
    split
    · exact lt_of_lt_of_le (left_size_lt _ (by simp)) (by simp)
    · simp only [Node.left_node, Node.size_node]
      omega
  · simp_wf
    rw [Prod.lex_def]
    right
    constructor
    · split <;> simp
    · omega

/-- Go `deleteRight`: the descent to the right-hand side of a deletion,
including the replace-with-successor case.  Only called on nodes whose
right child is non-nil. -/
def deleteRight [LinearOrder E] [Inhabited E] (root : Node E) (element : E) : Node E × Bool :=
  match root with
  | .nil => (.nil, false)
  | .node e c l r =>
    let root1 := if !isRed r && !isRed r.left then moveRedRight (.node e c l r) else .node e c l r
    if element = root1.elem then
      ((root1.setElem (first root1.right).elem).setRight (deleteMinimum root1.right), true)
    else
      let res := delete_ root1.right element
      (root1.setRight res.1, res.2)
termination_by (root.size, 0)
decreasing_by
  simp_wf
  rw [Prod.lex_def]
  left
  split
  · exact lt_of_lt_of_le (right_size_lt _ (by simp)) (by simp)
  · simp only [Node.right_node, Node.size_node]
    omega

end

/-- Embedding of Go `type SortedSet[E Comparable] struct`; the zero
value (nil root, size 0) is the empty set. -/
structure SortedSet (E : Type) where
  root : Node E := .nil
  size : Int := 0
deriving DecidableEq, Repr

/-- Go `Add`: insert through the recursive helper, unconditionally
blacken the root, and bump `size` when a new node was created. -/
def Add [LinearOrder E] (me : SortedSet E) (element : E) : SortedSet E × Bool :=
  let res := insert me.root element
  ({ root := res.1.setRed false, size := if res.2 then me.size + 1 else me.size }, res.2)

/-- Go `Delete`: call the recursive helper only on a non-empty tree,
blacken a non-nil resulting root, and decrement `size` when an element
was removed. -/
def Delete [LinearOrder E] [Inhabited E] (me : SortedSet E) (element : E) : SortedSet E × Bool :=
  let res :=
    if me.root.isNil then (me.root, false)
    else
      let res := delete_ me.root element
      (if res.1.isNil then res.1 else res.1.setRed false, res.2)
  ({ root := res.1, size := if res.2 then me.size - 1 else me.size }, res.2)

/-- Go `Len`. -/
def Len (me : SortedSet E) : Int := me.size

/-- Go `Contains` (iterative in the source; the loop is rendered as
structural recursion along the search path). -/
def contains [LinearOrder E] : Node E → E → Bool
  | .nil, _ => false
  | .node e _ l r, element =>
    if element < e then contains l element
    else if e < element then contains r element
    else true

/-- Go `Contains` method wrapper. -/
def Contains [LinearOrder E] (me : SortedSet E) (element : E) : Bool := contains me.root element

/-- Go `New`: fold `Add` over the given elements starting from the zero
value. -/
def New [LinearOrder E] (elements : List E) : SortedSet E :=
  elements.foldl (fun sset element => (Add sset element).1) {}

/-- Go `all`: the recursive in-order walk driving the iterator, with the
impure `yield` callback made pure by threading its state `σ` explicitly.
The Go body `all(root.left, yield) && yield(root.element) &&
all(root.right, yield)` short-circuits exactly as the nested
conditionals below do. -/
def all {σ : Type} (root : Node E) (yield : σ → E → σ × Bool) (s : σ) : σ × Bool :=
  match root with
  | .nil => (s, true)
  | .node e _ l r =>
    let res := all l yield s
    if res.2 then
      let res2 := yield res.1 e
      if res2.2 then all r yield res2.1 else (res2.1, false)
    else (res.1, false)

/-- Go `ToSlice`: run the iterator with a yield that appends every
element and never stops. -/
def ToSlice (me : SortedSet E) : List E :=
  (all me.root (fun acc element => (acc ++ [element], true)) []).1

/-- Go `Intersection`: fold over this set's ascending traversal, keeping
the elements the other set contains.  The Go `for element := range
me.All()` loop never stops early, so it is the fold over the traversal
sequence `ToSlice me`. -/
def Intersection [LinearOrder E] (me other : SortedSet E) : SortedSet E :=
  (ToSlice me).foldl
    (fun intersection element =>
      if Contains other element then (Add intersection element).1 else intersection)
    (New [])

/-- Go `hasStringElements`: the loop body returns on the first yielded
element, reporting whether its dynamic type is `string`; on an empty set
the loop body never runs and `false` is returned.  The outcome of the Go
type assertion `any(element).(string)` is uniform over the element type
`E` and is abstracted as the parameter `isStr`. -/
def hasStringElements (isStr : Bool) (me : SortedSet E) : Bool :=
  match ToSlice me with
  | [] => false
  | _ :: _ => isStr

/-- Go `String`: render `{`, then each element preceded by the current
separator, then `}`.  `fmtV` and `fmtQ` abstract the rendering of one
element by the Go verbs `%v` and `%q`; the format is chosen once,
before the loop, by `hasStringElements`. -/
def string (fmtV fmtQ : E → String) (isStr : Bool) (me : SortedSet E) : String :=
  let format := if hasStringElements isStr me then fmtQ else fmtV
  let res :=
    (ToSlice me).foldl
      (fun (acc : String × String) element => (acc.1 ++ acc.2 ++ format element, " "))
      ("\x7b", "")
  res.1 ++ "\x7d"

/-- One mutating operation of the public API. -/
inductive Op (E : Type) where
  | add (x : E)
  | del (x : E)
deriving DecidableEq, Repr

/-- Apply one operation, discarding the reported flag. -/
def applyOp [LinearOrder E] [Inhabited E] (s : SortedSet E) : Op E → SortedSet E
  | .add x => (Add s x).1
  | .del x => (Delete s x).1

/-- Run a sequence of `Add`/`Delete` operations on the empty set. -/
def applyOps [LinearOrder E] [Inhabited E] (ops : List (Op E)) : SortedSet E :=
  ops.foldl applyOp {}


theorem insert_spec [LinearOrder E] (root : Node E) (element : E) :
    (insert root element).1.toList = insListSpec element root ∧
      (insert root element).2 = insFlagSpec element root := by
  induction root, element using insert.induct with
  | case1 element => simp [insert, insListSpec, insFlagSpec]
  | case2 element e c l r root1 ihl ihr =>
    have hr1 : root1 = if isRed l && isRed r then colorFlip (Node.node e c l r)
        else Node.node e c l r := rfl
    by_cases hf : (isRed l && isRed r) = true
    · have h1 : root1.left = flipTop l := by rw [hr1, if_pos hf]; rfl
      have h2 : root1.right = flipTop r := by rw [hr1, if_pos hf]; rfl
      rw [h1] at ihl
      rw [h2] at ihr
      rcases lt_trichotomy element e with h | h | h
      · refine ⟨?_, ?_⟩
        · simp [insert, hf, h, insListSpec, ihl.1]
        · simp [insert, hf, h, insFlagSpec, ihl.2]
      · subst h
        refine ⟨?_, ?_⟩
        · simp [insert, hf, insListSpec, lt_irrefl]
        · simp [insert, hf, insFlagSpec, lt_irrefl]
      · refine ⟨?_, ?_⟩
        · simp [insert, hf, h, lt_asymm h, insListSpec, ihr.1]
        · simp [insert, hf, h, lt_asymm h, insFlagSpec, ihr.2]
    · have h1 : root1.left = l := by rw [hr1, if_neg hf]; rfl
      have h2 : root1.right = r := by rw [hr1, if_neg hf]; rfl
      rw [h1] at ihl
      rw [h2] at ihr
      rcases lt_trichotomy element e with h | h | h
      · refine ⟨?_, ?_⟩
        · simp [insert, hf, h, insListSpec, ihl.1]
        · simp [insert, hf, h, insFlagSpec, ihl.2]
      · subst h
        refine ⟨?_, ?_⟩
        · simp [insert, hf, insListSpec, lt_irrefl]
        · simp [insert, hf, insFlagSpec, lt_irrefl]
      · refine ⟨?_, ?_⟩
        · simp [insert, hf, h, lt_asymm h, insListSpec, ihr.1]
        · simp [insert, hf, h, lt_asymm h, insFlagSpec, ihr.2]

theorem insertRef_spec [LinearOrder E] (root : Node E) (element : E) :
    (insertRef root element).1.toList = insListSpec element root ∧
      (insertRef root element).2 = insFlagSpec element root := by
  induction root with
  | nil => simp [insertRef, insListSpec, insFlagSpec]
  | node e c l r ihl ihr =>
    rcases lt_trichotomy element e with h | h | h
    · refine ⟨?_, ?_⟩
      · simp [insertRef, h, insListSpec, ihl.1, apply_ite Node.toList]
      · simp [insertRef, h, insFlagSpec, ihl.2]
    · subst h
      refine ⟨?_, ?_⟩
      · simp [insertRef, insListSpec, lt_irrefl, apply_ite Node.toList]
      · simp [insertRef, insFlagSpec, lt_irrefl]
    · refine ⟨?_, ?_⟩
      · simp [insertRef, h, lt_asymm h, insListSpec, ihr.1, apply_ite Node.toList]
      · simp [insertRef, h, lt_asymm h, insFlagSpec, ihr.2]



/-- Boolean bounded-quantifier over a subtree. -/
def allB (p : E → Bool) : Node E → Bool
  | .nil => true
  | .node e _ l r => p e && allB p l && allB p r

/-- The binary-search-tree ordering invariant of spec §3 ("BST order"):
each node's left subtree holds smaller and right subtree larger
elements.  Every tree reachable through the public API satisfies it. -/
def bst [LinearOrder E] : Node E → Bool
  | .nil => true
  | .node e _ l r =>
    allB (fun y => decide (y < e)) l && allB (fun y => decide (e < y)) r && bst l && bst r

theorem allB_iff {p : E → Bool} {t : Node E} :
    allB p t = true ↔ ∀ y ∈ t.toList, p y = true := by
  induction t with
  | nil => simp [allB]
  | node e c l r ihl ihr =>
    simp only [allB, Bool.and_eq_true, ihl, ihr, Node.toList_node, List.mem_append,
      List.mem_cons]
    constructor
    · rintro ⟨⟨hc, hl⟩, hr⟩ y (hy | rfl | hy)
      · exact hl y hy
      · exact hc
      · exact hr y hy
    · intro h
      exact ⟨⟨h e (Or.inr (Or.inl rfl)), fun y hy => h y (Or.inl hy)⟩,
        fun y hy => h y (Or.inr (Or.inr hy))⟩

theorem bst_node_iff [LinearOrder E] {e : E} {c : Bool} {l r : Node E} :
    bst (Node.node e c l r) = true ↔
      (∀ y ∈ l.toList, y < e) ∧ (∀ y ∈ r.toList, e < y) ∧ bst l = true ∧ bst r = true := by
  simp [bst, allB_iff, and_assoc]

theorem bst_iff_pairwise [LinearOrder E] {t : Node E} :
    bst t = true ↔ t.toList.Pairwise (· < ·) := by
  induction t with
  | nil => simp [bst]
  | node e c l r ihl ihr =>
    rw [bst_node_iff, ihl, ihr]
    simp only [Node.toList_node, List.pairwise_append, List.pairwise_cons, List.mem_cons]
    constructor
    · rintro ⟨h1, h2, h3, h4⟩
      exact ⟨h3, ⟨h2, h4⟩, fun x hx y hy => by
        rcases hy with rfl | hy
        · exact h1 x hx
        · exact lt_trans (h1 x hx) (h2 y hy)⟩
    · rintro ⟨h3, ⟨h2, h4⟩, hcross⟩
      exact ⟨fun x hx => hcross x hx e (Or.inl rfl), h2, h3, h4⟩

theorem mem_insListSpec [LinearOrder E] {x y : E} {t : Node E} :
    y ∈ insListSpec x t ↔ y = x ∨ y ∈ t.toList := by
  induction t with
  | nil => simp [insListSpec]
  | node e c l r ihl ihr =>
    rcases lt_trichotomy x e with h | h | h
    · simp only [insListSpec, if_pos h, Node.toList_node, List.mem_append, List.mem_cons, ihl]
      tauto
    · subst h
      rw [show insListSpec x (Node.node x c l r) = l.toList ++ x :: r.toList from by
        simp [insListSpec]]
      simp only [Node.toList_node, List.mem_append, List.mem_cons]
      tauto
    · simp only [insListSpec, if_neg (lt_asymm h), if_pos h, Node.toList_node,
        List.mem_append, List.mem_cons, ihr]
      tauto

theorem pairwise_insListSpec [LinearOrder E] {x : E} {t : Node E}
    (hp : t.toList.Pairwise (· < ·)) : (insListSpec x t).Pairwise (· < ·) := by
  induction t with
  | nil => simp [insListSpec]
  | node e c l r ihl ihr =>
    simp only [Node.toList_node, List.pairwise_append, List.pairwise_cons] at hp
    obtain ⟨h3, ⟨h2, h4⟩, hcross⟩ := hp
    rcases lt_trichotomy x e with h | h | h
    · simp only [insListSpec, if_pos h, List.pairwise_append, List.pairwise_cons]
      refine ⟨ihl h3, ⟨h2, h4⟩, ?_⟩
      intro a ha b hb
      rcases mem_insListSpec.mp ha with rfl | ha'
      · rcases List.mem_cons.mp hb with rfl | hb'
        · exact h
        · exact lt_trans h (h2 b hb')
      · exact hcross a ha' b hb
    · subst h
      rw [show insListSpec x (Node.node x c l r) = l.toList ++ x :: r.toList from by
        simp [insListSpec]]
      exact List.pairwise_append.mpr ⟨h3, List.pairwise_cons.mpr ⟨h2, h4⟩, hcross⟩
    · simp only [insListSpec, if_neg (lt_asymm h), if_pos h, List.pairwise_append,
        List.pairwise_cons]
      refine ⟨h3, ⟨?_, ihr h4⟩, ?_⟩
      · intro b hb
        rcases mem_insListSpec.mp hb with rfl | hb'
        · exact h
        · exact h2 b hb'
      · intro a ha b hb
        rcases List.mem_cons.mp hb with rfl | hb'
        · exact hcross a ha b (List.mem_cons_self b r.toList)
        · rcases mem_insListSpec.mp hb' with rfl | hb''
          · exact lt_trans (hcross a ha e (List.mem_cons_self e r.toList)) h
          · exact hcross a ha b (List.mem_cons_of_mem e hb'')

theorem insListSpec_perm [LinearOrder E] {x : E} {t : Node E} (hx : x ∉ t.toList) :
    List.Perm (insListSpec x t) (x :: t.toList) := by
  induction t with
  | nil => simp [insListSpec]
  | node e c l r ihl ihr =>
    simp only [Node.toList_node, List.mem_append, List.mem_cons, not_or] at hx
    obtain ⟨hxl, hxe, hxr⟩ := hx
    rcases lt_trichotomy x e with h | h | h
    · simp only [insListSpec, if_pos h, Node.toList_node]
      exact (ihl hxl).append_right _
    · exact absurd h hxe
    · simp only [insListSpec, if_neg (lt_asymm h), if_pos h, Node.toList_node]
      have step1 : List.Perm (l.toList ++ e :: insListSpec x r)
          (l.toList ++ e :: (x :: r.toList)) := ((ihr hxr).cons e).append_left _
      have step2 : List.Perm ((l.toList ++ [e]) ++ x :: r.toList)
          (x :: ((l.toList ++ [e]) ++ r.toList)) := List.perm_middle
      have step3 : l.toList ++ e :: (x :: r.toList) = (l.toList ++ [e]) ++ x :: r.toList := by
        simp
      have step4 : x :: ((l.toList ++ [e]) ++ r.toList) = x :: (l.toList ++ e :: r.toList) := by
        simp
      exact step1.trans (step3 ▸ step4 ▸ step2)

theorem insListSpec_of_mem [LinearOrder E] {x : E} {t : Node E} (hb : bst t = true)
    (hx : x ∈ t.toList) : insListSpec x t = t.toList ∧ insFlagSpec x t = false := by
  induction t with
  | nil => simp at hx
  | node e c l r ihl ihr =>
    rw [bst_node_iff] at hb
    obtain ⟨hle, hgt, hbl, hbr⟩ := hb
    rcases lt_trichotomy x e with h | h | h
    · have hxl : x ∈ l.toList := by
        rcases (by simpa using hx : x ∈ l.toList ∨ x = e ∨ x ∈ r.toList) with hy | rfl | hy
        · exact hy
        · exact absurd h (lt_irrefl x)
        · exact absurd h (not_lt_of_gt (hgt x hy))
      obtain ⟨h1, h2⟩ := ihl hbl hxl
      simp [insListSpec, insFlagSpec, h, h1, h2]
    · subst h
      simp [insListSpec, insFlagSpec, lt_irrefl]
    · have hxr : x ∈ r.toList := by
        rcases (by simpa using hx : x ∈ l.toList ∨ x = e ∨ x ∈ r.toList) with hy | rfl | hy
        · exact absurd (hle x hy) (not_lt_of_gt h)
        · exact absurd h (lt_irrefl x)
        · exact hy
      obtain ⟨h1, h2⟩ := ihr hbr hxr
      simp [insListSpec, insFlagSpec, h, lt_asymm h, h1, h2]

theorem insFlagSpec_of_not_mem [LinearOrder E] {x : E} {t : Node E} (hx : x ∉ t.toList) :
    insFlagSpec x t = true := by
  induction t with
  | nil => simp [insFlagSpec]
  | node e c l r ihl ihr =>
    simp only [Node.toList_node, List.mem_append, List.mem_cons, not_or] at hx
    obtain ⟨hxl, hxe, hxr⟩ := hx
    rcases lt_trichotomy x e with h | h | h
    · simpa [insFlagSpec, h] using ihl hxl
    · exact absurd h hxe
    · simpa [insFlagSpec, h, lt_asymm h] using ihr hxr

theorem contains_iff [LinearOrder E] {t : Node E} {x : E} (hb : bst t = true) :
    contains t x = true ↔ x ∈ t.toList := by
  induction t with
  | nil => simp [contains]
  | node e c l r ihl ihr =>
    rw [bst_node_iff] at hb
    obtain ⟨hle, hgt, hbl, hbr⟩ := hb
    rcases lt_trichotomy x e with h | h | h
    · rw [show contains (Node.node e c l r) x = contains l x by simp [contains, h]]
      rw [ihl hbl]
      simp only [Node.toList_node, List.mem_append, List.mem_cons]
      constructor
      · exact Or.inl
      · rintro (hy | rfl | hy)
        · exact hy
        · exact absurd h (lt_irrefl x)
        · exact absurd h (not_lt_of_gt (hgt x hy))
    · subst h
      simp [contains, lt_irrefl]
    · rw [show contains (Node.node e c l r) x = contains r x by
        simp [contains, h, lt_asymm h]]
      rw [ihr hbr]
      simp only [Node.toList_node, List.mem_append, List.mem_cons]
      constructor
      · intro hy
        exact Or.inr (Or.inr hy)
      · rintro (hy | rfl | hy)
        · exact absurd (hle x hy) (not_lt_of_gt h)
        · exact absurd h (lt_irrefl x)
        · exact hy




theorem all_append_acc (root : Node E) (acc : List E) :
    all root (fun a element => (a ++ [element], true)) acc = (acc ++ root.toList, true) := by
  induction root generalizing acc with
  | nil => simp [all]
  | node e c l r ihl ihr => simp [all, ihl, ihr]

/-- `ToSlice` materialises exactly the in-order traversal. -/
theorem ToSlice_eq (me : SortedSet E) : ToSlice me = me.root.toList := by
  simp [ToSlice, all_append_acc]

theorem Add_spec [LinearOrder E] (s : SortedSet E) (x : E) :
    (Add s x).1.root.toList = insListSpec x s.root ∧
      (Add s x).2 = insFlagSpec x s.root ∧
      (Add s x).1.size = (if insFlagSpec x s.root = true then s.size + 1 else s.size) := by
  obtain ⟨h1, h2⟩ := insert_spec s.root x
  refine ⟨?_, ?_, ?_⟩ <;> simp [Add, h1, h2]

theorem bst_Add [LinearOrder E] {s : SortedSet E} (x : E) (hb : bst s.root = true) :
    bst (Add s x).1.root = true := by
  rw [bst_iff_pairwise] at hb ⊢
  rw [(Add_spec s x).1]
  exact pairwise_insListSpec hb

theorem mem_Add [LinearOrder E] (s : SortedSet E) (x y : E) :
    y ∈ (Add s x).1.root.toList ↔ y = x ∨ y ∈ s.root.toList := by
  rw [(Add_spec s x).1]
  exact mem_insListSpec

theorem elem_mem [Inhabited E] {t : Node E} (h : t.isNil = false) :
    t.elem ∈ t.toList := by
  cases t with
  | nil => simp at h
  | node e c l r => simp

theorem toList_parts [Inhabited E] {t : Node E} (h : t.isNil = false) :
    t.toList = t.left.toList ++ t.elem :: t.right.toList := by
  cases t with
  | nil => simp at h
  | node e c l r => simp

theorem toList_setLeft_parts [Inhabited E] {t : Node E} (u : Node E) (h : t.isNil = false) :
    (t.setLeft u).toList = u.toList ++ t.elem :: t.right.toList := by
  cases t with
  | nil => simp at h
  | node e c l r => simp

theorem toList_setRight_parts [Inhabited E] {t : Node E} (u : Node E) (h : t.isNil = false) :
    (t.setRight u).toList = t.left.toList ++ t.elem :: u.toList := by
  cases t with
  | nil => simp at h
  | node e c l r => simp

theorem bst_parts [LinearOrder E] [Inhabited E] {t : Node E} (h : t.isNil = false)
    (hb : bst t = true) :
    bst t.left = true ∧ bst t.right = true ∧
      (∀ y ∈ t.left.toList, y < t.elem) ∧ (∀ y ∈ t.right.toList, t.elem < y) := by
  cases t with
  | nil => simp at h
  | node e c l r =>
    rw [bst_node_iff] at hb
    exact ⟨hb.2.2.1, hb.2.2.2, hb.1, hb.2.1⟩




theorem delete_notMem [LinearOrder E] [Inhabited E] (t : Node E) (x : E) :
    bst t = true → x ∉ t.toList →
      (delete_ t x).1.toList = t.toList ∧ (delete_ t x).2 = false := by
  refine delete_.induct
    (fun t x => bst t = true → x ∉ t.toList →
      (delete_ t x).1.toList = t.toList ∧ (delete_ t x).2 = false)
    (fun t x => bst t = true → x ∉ t.toList →
      (deleteRight t x).1.toList = t.toList ∧ (deleteRight t x).2 = false)
    ?_ ?_ ?_ ?_ ?_ ?_ ?_ ?_ ?_ t x
  · intro x hb hx
    simp [delete_]
  · -- x < e and left child nil: fixUp only
    intro x a c l r hlt hlnil hb hx
    rw [show delete_ (Node.node a c l r) x = (fixUp (Node.node a c l r), false) from by
      simp only [delete_, if_pos hlt, if_pos hlnil]]
    simp
  · -- x < e, descend left after possible moveRedLeft
    intro x a c l r hlt hlnil root1 ih hb hx
    have hr1 : root1 = if (!isRed l && !isRed l.left) = true then
        moveRedLeft (Node.node a c l r) else Node.node a c l r := by
      rw [show root1 = if h : (!isRed l && !isRed l.left) = true then
        moveRedLeft (Node.node a c l r) else Node.node a c l r from rfl, dite_eq_ite]
    have htl : root1.toList = (Node.node a c l r).toList := by
      rw [hr1]; split <;> simp
    have hnil : root1.isNil = false := by
      rw [hr1]; split <;> simp
    have hbst : bst root1 = true := by
      rw [bst_iff_pairwise, htl]
      rw [bst_iff_pairwise] at hb
      exact hb
    obtain ⟨hbl, hbr, hlo, hhi⟩ := bst_parts hnil hbst
    have hxl : x ∉ root1.left.toList := by
      intro hmem
      exact hx (htl ▸ (toList_parts hnil ▸
        (List.mem_append.mpr (Or.inl hmem) : x ∈ root1.left.toList ++
          root1.elem :: root1.right.toList)))
    obtain ⟨ih1, ih2⟩ := ih hbl hxl
    rw [show delete_ (Node.node a c l r) x =
        (fixUp (root1.setLeft (delete_ root1.left x).1), (delete_ root1.left x).2) from by
      simp only [delete_, if_pos hlt, if_neg hlnil]
      rw [← hr1]]
    refine ⟨?_, ih2⟩
    rw [toList_fixUp, toList_setLeft_parts _ hnil, ih1, ← toList_parts hnil, htl]
  · -- not x < e, and (x = root1.elem and right nil): impossible when x is absent
    intro x a c l r hnlt root1 heq hb hx
    have hr1 : root1 = if isRed l = true then
        rotateRight (Node.node a c l r) else Node.node a c l r := by
      rw [show root1 = if h : isRed l = true then
        rotateRight (Node.node a c l r) else Node.node a c l r from rfl, dite_eq_ite]
    have htl : root1.toList = (Node.node a c l r).toList := by
      rw [hr1]; split <;> simp
    have hnil : root1.isNil = false := by
      rw [hr1]; split <;> simp
    exact absurd (htl ▸ (heq.1 ▸ elem_mem hnil)) hx
  · -- not x < e, right child nil: fixUp only
    intro x a c l r hnlt root1 hne hrnil hb hx
    have hr1 : root1 = if isRed l = true then
        rotateRight (Node.node a c l r) else Node.node a c l r := by
      rw [show root1 = if h : isRed l = true then
        rotateRight (Node.node a c l r) else Node.node a c l r from rfl, dite_eq_ite]
    have htl : root1.toList = (Node.node a c l r).toList := by
      rw [hr1]; split <;> simp
    rw [show delete_ (Node.node a c l r) x = (fixUp root1, false) from by
      simp only [delete_, if_neg hnlt, ← hr1, if_neg hne, if_pos hrnil]]
    refine ⟨?_, rfl⟩
    rw [toList_fixUp, htl]
  · -- not x < e, descend right via deleteRight
    intro x a c l r hnlt root1 hne hrnil ih hb hx
    have hr1 : root1 = if isRed l = true then
        rotateRight (Node.node a c l r) else Node.node a c l r := by
      rw [show root1 = if h : isRed l = true then
        rotateRight (Node.node a c l r) else Node.node a c l r from rfl, dite_eq_ite]
    have htl : root1.toList = (Node.node a c l r).toList := by
      rw [hr1]; split <;> simp
    have hbst : bst root1 = true := by
      rw [bst_iff_pairwise, htl]
      rw [bst_iff_pairwise] at hb
      exact hb
    obtain ⟨ih1, ih2⟩ := ih hbst (htl ▸ hx)
    rw [show delete_ (Node.node a c l r) x =
        (fixUp (deleteRight root1 x).1, (deleteRight root1 x).2) from by
      simp only [delete_, if_neg hnlt, ← hr1, if_neg hne, if_neg hrnil]]
    refine ⟨?_, ih2⟩
    rw [toList_fixUp, ih1, htl]
  · intro x hb hx
    simp [deleteRight]
  · -- deleteRight with the target equal to the current element: impossible
    intro a c l r root1 hb hx
    have hr1 : root1 = if (!isRed r && !isRed r.left) = true then
        moveRedRight (Node.node a c l r) else Node.node a c l r := by
      rw [show root1 = if h : (!isRed r && !isRed r.left) = true then
        moveRedRight (Node.node a c l r) else Node.node a c l r from rfl, dite_eq_ite]
    have htl : root1.toList = (Node.node a c l r).toList := by
      rw [hr1]; split <;> simp
    have hnil : root1.isNil = false := by
      rw [hr1]; split <;> simp
    exact absurd (htl ▸ elem_mem hnil) hx
  · -- deleteRight descending into the right subtree
    intro x a c l r root1 hne ih hb hx
    have hr1 : root1 = if (!isRed r && !isRed r.left) = true then
        moveRedRight (Node.node a c l r) else Node.node a c l r := by
      rw [show root1 = if h : (!isRed r && !isRed r.left) = true then
        moveRedRight (Node.node a c l r) else Node.node a c l r from rfl, dite_eq_ite]
    have htl : root1.toList = (Node.node a c l r).toList := by
      rw [hr1]; split <;> simp
    have hnil : root1.isNil = false := by
      rw [hr1]; split <;> simp
    have hbst : bst root1 = true := by
      rw [bst_iff_pairwise, htl]
      rw [bst_iff_pairwise] at hb
      exact hb
    obtain ⟨hbl, hbr, hlo, hhi⟩ := bst_parts hnil hbst
    have hxr : x ∉ root1.right.toList := by
      intro hmem
      exact hx (htl ▸ (toList_parts hnil ▸
        (List.mem_append.mpr (Or.inr (List.mem_cons_of_mem _ hmem)) :
          x ∈ root1.left.toList ++ root1.elem :: root1.right.toList)))
    obtain ⟨ih1, ih2⟩ := ih hbr hxr
    rw [show deleteRight (Node.node a c l r) x =
        (root1.setRight (delete_ root1.right x).1, (delete_ root1.right x).2) from by
      simp only [deleteRight, ← hr1, if_neg hne]]
    refine ⟨?_, ih2⟩
    rw [toList_setRight_parts _ hnil, ih1, ← toList_parts hnil, htl]




theorem Delete_notMem [LinearOrder E] [Inhabited E] (s : SortedSet E) (x : E)
    (hb : bst s.root = true) (hx : x ∉ s.root.toList) :
    (Delete s x).1.root.toList = s.root.toList ∧ (Delete s x).1.size = s.size ∧
      (Delete s x).2 = false := by
  by_cases hs : s.root.isNil = true
  · refine ⟨?_, ?_, ?_⟩ <;> simp [Delete, hs]
  · obtain ⟨h1, h2⟩ := delete_notMem s.root x hb hx
    refine ⟨?_, ?_, ?_⟩ <;>
      simp [Delete, hs, h1, h2, apply_ite Node.toList]

/-- Instrumentation of a consumer callback: thread the consumer state and
additionally record every element the walk hands to the consumer. -/
def logger {σ : Type} (f : σ → E → σ × Bool) (sl : σ × List E) (element : E) :
    (σ × List E) × Bool :=
  (((f sl.1 element).1, sl.2 ++ [element]), (f sl.1 element).2)

/-- Reference semantics of an early-stoppable left-to-right scan: feed the
elements of a list to the consumer in order and stop immediately after
the first element on which the consumer returns `false`; also report the
elements consumed. -/
def runSeq {σ : Type} (f : σ → E → σ × Bool) (s : σ) : List E → σ × Bool × List E
  | [] => (s, true, [])
  | e :: rest =>
    if (f s e).2 then
      ((runSeq f (f s e).1 rest).1, (runSeq f (f s e).1 rest).2.1,
        e :: (runSeq f (f s e).1 rest).2.2)
    else ((f s e).1, false, [e])

theorem runSeq_append {σ : Type} (f : σ → E → σ × Bool) (s : σ) (l1 l2 : List E) :
    runSeq f s (l1 ++ l2) =
      (if (runSeq f s l1).2.1 = true then
        ((runSeq f (runSeq f s l1).1 l2).1, (runSeq f (runSeq f s l1).1 l2).2.1,
          (runSeq f s l1).2.2 ++ (runSeq f (runSeq f s l1).1 l2).2.2)
      else runSeq f s l1) := by
  induction l1 generalizing s with
  | nil => simp [runSeq]
  | cons e rest ih =>
    by_cases hc : (f s e).2 = true
    · simp only [List.cons_append, runSeq, hc, if_pos, ih]
      by_cases hc2 : (runSeq f (f s e).1 rest).2.1 = true <;> simp [hc2, ih]
    · simp [runSeq, hc]

theorem all_logger (root : Node E) {σ : Type} (f : σ → E → σ × Bool) (s : σ)
    (log : List E) :
    all root (logger f) (s, log) =
      (((runSeq f s root.toList).1, log ++ (runSeq f s root.toList).2.2),
        (runSeq f s root.toList).2.1) := by
  induction root generalizing s log with
  | nil => simp [all, runSeq]
  | node e c l r ihl ihr =>
    rw [show all (Node.node e c l r) (logger f) (s, log) =
        (let res := all l (logger f) (s, log)
         if res.2 = true then
           let res2 := logger f res.1 e
           if res2.2 = true then all r (logger f) res2.1 else (res2.1, false)
         else (res.1, false)) from by simp [all]]
    rw [Node.toList_node, runSeq_append]
    rw [ihl]
    by_cases h1 : (runSeq f s l.toList).2.1 = true
    · simp only [h1, if_pos]
      rw [show runSeq f (runSeq f s l.toList).1 (e :: r.toList) =
          (if (f (runSeq f s l.toList).1 e).2 = true then
            ((runSeq f (f (runSeq f s l.toList).1 e).1 r.toList).1,
              (runSeq f (f (runSeq f s l.toList).1 e).1 r.toList).2.1,
              e :: (runSeq f (f (runSeq f s l.toList).1 e).1 r.toList).2.2)
          else ((f (runSeq f s l.toList).1 e).1, false, [e])) from rfl]
      by_cases h2 : (f (runSeq f s l.toList).1 e).2 = true
      · simp only [h2, if_pos, logger]
        rw [ihr]
        simp
      · simp [h2, logger]
    · simp [h1]

theorem pairwise_ext [LinearOrder E] :
    ∀ {l1 l2 : List E}, l1.Pairwise (· < ·) → l2.Pairwise (· < ·) →
      (∀ y, y ∈ l1 ↔ y ∈ l2) → l1 = l2
  | [], [], _, _, _ => rfl
  | [], b :: l2, _, _, hm => absurd ((hm b).mpr (List.mem_cons_self b l2)) (List.not_mem_nil b)
  | a :: l1, [], _, _, hm => absurd ((hm a).mp (List.mem_cons_self a l1)) (List.not_mem_nil a)
  | a :: l1, b :: l2, h1, h2, hm => by
    obtain ⟨ha1, h1'⟩ := List.pairwise_cons.mp h1
    obtain ⟨hb1, h2'⟩ := List.pairwise_cons.mp h2
    have hab : a = b := by
      rcases List.mem_cons.mp ((hm a).mp (List.mem_cons_self a l1)) with h | h
      · exact h
      · rcases List.mem_cons.mp ((hm b).mpr (List.mem_cons_self b l2)) with h' | h'
        · exact h'.symm
        · exact absurd (lt_trans (hb1 a h) (ha1 b h')) (lt_irrefl b)
    subst hab
    have htail : ∀ y, y ∈ l1 ↔ y ∈ l2 := by
      intro y
      constructor
      · intro hy
        rcases List.mem_cons.mp ((hm y).mp (List.mem_cons_of_mem a hy)) with h | h
        · exact absurd (h ▸ ha1 y hy) (lt_irrefl y)
        · exact h
      · intro hy
        rcases List.mem_cons.mp ((hm y).mpr (List.mem_cons_of_mem a hy)) with h | h
        · exact absurd (h ▸ hb1 y hy) (lt_irrefl y)
        · exact h
    rw [pairwise_ext h1' h2' htail]




theorem foldl_Add_invariant [LinearOrder E] (xs : List E) (acc : SortedSet E)
    (hb : bst acc.root = true) (hnd : xs.Nodup)
    (hdisj : ∀ x ∈ xs, x ∉ acc.root.toList) :
    bst (xs.foldl (fun sset element => (Add sset element).1) acc).root = true ∧
      List.Perm (xs.foldl (fun sset element => (Add sset element).1) acc).root.toList
        (acc.root.toList ++ xs) := by
  induction xs generalizing acc with
  | nil => simpa using hb
  | cons x rest ih =>
    have hb1 : bst (Add acc x).1.root = true := bst_Add x hb
    have hx : x ∉ acc.root.toList := hdisj x (List.mem_cons_self x rest)
    have hperm1 : List.Perm (Add acc x).1.root.toList (x :: acc.root.toList) := by
      rw [(Add_spec acc x).1]
      exact insListSpec_perm hx
    have hnd' : rest.Nodup := (List.nodup_cons.mp hnd).2
    have hxrest : x ∉ rest := (List.nodup_cons.mp hnd).1
    have hdisj' : ∀ y ∈ rest, y ∉ (Add acc x).1.root.toList := by
      intro y hy hmem
      rcases (mem_Add acc x y).mp hmem with rfl | hmem'
      · exact hxrest hy
      · exact hdisj y (List.mem_cons_of_mem x hy) hmem'
    obtain ⟨ih1, ih2⟩ := ih (Add acc x).1 hb1 hnd' hdisj'
    refine ⟨ih1, ?_⟩
    exact ih2.trans ((hperm1.append_right rest).trans List.perm_middle.symm)

theorem foldl_inter_invariant [LinearOrder E] (other : SortedSet E) (l : List E)
    (acc : SortedSet E) (hb : bst acc.root = true) :
    bst ((l.foldl (fun intersection element =>
        if Contains other element then (Add intersection element).1 else intersection)
        acc).root) = true ∧
      ∀ y, y ∈ (l.foldl (fun intersection element =>
          if Contains other element then (Add intersection element).1 else intersection)
          acc).root.toList ↔
        y ∈ acc.root.toList ∨ (y ∈ l ∧ Contains other y = true) := by
  induction l generalizing acc with
  | nil => simpa using hb
  | cons x rest ih =>
    by_cases hc : Contains other x = true
    · have hb1 : bst (Add acc x).1.root = true := bst_Add x hb
      obtain ⟨ih1, ih2⟩ := ih (Add acc x).1 hb1
      refine ⟨by simpa [hc] using ih1, ?_⟩
      intro y
      rw [show ((x :: rest).foldl (fun intersection element =>
          if Contains other element then (Add intersection element).1 else intersection)
          acc) = (rest.foldl (fun intersection element =>
          if Contains other element then (Add intersection element).1 else intersection)
          (Add acc x).1) from by simp [hc]]
      rw [ih2 y, mem_Add]
      constructor
      · rintro ((rfl | hy) | ⟨hy1, hy2⟩)
        · exact Or.inr ⟨List.mem_cons_self y rest, hc⟩
        · exact Or.inl hy
        · exact Or.inr ⟨List.mem_cons_of_mem x hy1, hy2⟩
      · rintro (hy | ⟨hy1, hy2⟩)
        · exact Or.inl (Or.inr hy)
        · rcases List.mem_cons.mp hy1 with rfl | hy1'
          · exact Or.inl (Or.inl rfl)
          · exact Or.inr ⟨hy1', hy2⟩
    · obtain ⟨ih1, ih2⟩ := ih acc hb
      refine ⟨by simpa [hc] using ih1, ?_⟩
      intro y
      rw [show ((x :: rest).foldl (fun intersection element =>
          if Contains other element then (Add intersection element).1 else intersection)
          acc) = (rest.foldl (fun intersection element =>
          if Contains other element then (Add intersection element).1 else intersection)
          acc) from by simp [hc]]
      rw [ih2 y]
      constructor
      · rintro (hy | ⟨hy1, hy2⟩)
        · exact Or.inl hy
        · exact Or.inr ⟨List.mem_cons_of_mem x hy1, hy2⟩
      · rintro (hy | ⟨hy1, hy2⟩)
        · exact Or.inl hy
        · rcases List.mem_cons.mp hy1 with rfl | hy1'
          · exact absurd hy2 hc
          · exact Or.inr ⟨hy1', hy2⟩

theorem mem_Intersection [LinearOrder E] (A B : SortedSet E)
    (hB : bst B.root = true) :
    bst (Intersection A B).root = true ∧
      ∀ y, y ∈ (Intersection A B).root.toList ↔
        y ∈ A.root.toList ∧ y ∈ B.root.toList := by
  obtain ⟨h1, h2⟩ := foldl_inter_invariant B (ToSlice A) (New []) (by rfl)
  rw [Intersection]
  refine ⟨h1, ?_⟩
  intro y
  rw [h2 y, ToSlice_eq]
  have hnone : y ∉ (New [] : SortedSet E).root.toList := by
    rw [show (New [] : SortedSet E) = {} from rfl]
    simp
  constructor
  · rintro (hy | ⟨hy1, hy2⟩)
    · exact absurd hy hnone
    · exact ⟨hy1, (contains_iff hB).mp hy2⟩
  · rintro ⟨hy1, hy2⟩
    exact Or.inr ⟨hy1, (contains_iff hB).mpr hy2⟩




theorem intercalate_go_append (pre acc sep : String) (l : List String) :
    String.intercalate.go (pre ++ acc) sep l = pre ++ String.intercalate.go acc sep l := by
  induction l generalizing acc with
  | nil => rfl
  | cons a as ih =>
    rw [show String.intercalate.go (pre ++ acc) sep (a :: as) =
        String.intercalate.go (pre ++ acc ++ sep ++ a) sep as from rfl]
    rw [show String.intercalate.go acc sep (a :: as) =
        String.intercalate.go (acc ++ sep ++ a) sep as from rfl]
    rw [show pre ++ acc ++ sep ++ a = pre ++ (acc ++ sep ++ a) from by
      simp [String.append_assoc]]
    exact ih (acc ++ sep ++ a)

theorem fold_intercalate_go (f : E → String) (rest : List E) (acc : String) :
    (rest.foldl (fun (a : String × String) element => (a.1 ++ a.2 ++ f element, " "))
      (acc, " ")).1 = String.intercalate.go acc " " (rest.map f) := by
  induction rest generalizing acc with
  | nil => rfl
  | cons b bs ih =>
    rw [show (b :: bs).foldl (fun (a : String × String) element =>
        (a.1 ++ a.2 ++ f element, " ")) (acc, " ") =
        bs.foldl (fun (a : String × String) element =>
        (a.1 ++ a.2 ++ f element, " ")) (acc ++ " " ++ f b, " ") from rfl]
    rw [ih (acc ++ " " ++ f b)]
    rfl

theorem string_eq_intercalate (fmtV fmtQ : E → String) (isStr : Bool) (me : SortedSet E) :
    string fmtV fmtQ isStr me =
      "\x7b" ++ String.intercalate " " ((ToSlice me).map (if isStr then fmtQ else fmtV)) ++ "\x7d" := by
  rw [string]
  cases hts : ToSlice me with
  | nil => simp [hasStringElements, hts, String.intercalate]
  | cons e rest =>
    have hhs : hasStringElements isStr me = isStr := by
      rw [hasStringElements, hts]
    rw [hhs]
    rw [show (e :: rest).foldl (fun (acc : String × String) element =>
        (acc.1 ++ acc.2 ++ (if isStr then fmtQ else fmtV) element, " ")) ("\x7b", "") =
        rest.foldl (fun (acc : String × String) element =>
        (acc.1 ++ acc.2 ++ (if isStr then fmtQ else fmtV) element, " "))
        ("\x7b" ++ "" ++ (if isStr then fmtQ else fmtV) e, " ") from rfl]
    rw [fold_intercalate_go]
    rw [show String.intercalate " " ((e :: rest).map (if isStr then fmtQ else fmtV)) =
        String.intercalate.go ((if isStr then fmtQ else fmtV) e) " "
          (rest.map (if isStr then fmtQ else fmtV)) from rfl]
    rw [show ("\x7b" ++ "" ++ (if isStr then fmtQ else fmtV) e) =
        "\x7b" ++ (if isStr then fmtQ else fmtV) e from by rw [String.append_empty]]
    rw [intercalate_go_append]




@[simp] theorem isRed_setRed_false (t : Node E) : isRed (t.setRed false) = false := by
  cases t <;> rfl

@[simp] theorem isNil_setRed (t : Node E) (b : Bool) : (t.setRed b).isNil = t.isNil := by
  cases t <;> rfl

theorem isRed_false_of_isNil {t : Node E} (h : t.isNil = true) : isRed t = false := by
  cases t with
  | nil => rfl
  | node e c l r => simp at h

theorem isNil_insert [LinearOrder E] (t : Node E) (x : E) :
    (insert t x).1.isNil = false := by
  cases t with
  | nil => simp [insert]
  | node e c l r =>
    simp only [insert, isNil_insertRotation]
    split
    · simp [apply_ite Node.isNil]
    · split <;> simp [apply_ite Node.isNil]

theorem ne_nil_of_isNil_false {t : Node E} (h : t.isNil = false) : t ≠ Node.nil := by
  intro heq
  rw [heq] at h
  simp at h



/-- C2 (amended): the code's `insert` applies the colour flip on the way
down (before the recursive descent), not on the way back up as the spec
describes; the two insertion routines are not equal as functions on
trees (see the counterexample), but for every tree and element they
produce trees with the same in-order element sequence and the same
inserted flag. -/
theorem c2_insert_flip_order_same_traversal_and_flag [LinearOrder E]
    (root : Node E) (element : E) :
    (insert root element).1.toList = (insertRef root element).1.toList ∧
      (insert root element).2 = (insertRef root element).2 := by
  obtain ⟨h1, h2⟩ := insert_spec root element
  obtain ⟨h3, h4⟩ := insertRef_spec root element
  exact ⟨h1.trans h3.symm, h2.trans h4.symm⟩

/-- C2 counterexample: on the tree with black root 1 and red left child
0 (reachable by Add 0; Add 1 on an empty set), inserting 2 with the
code's insert yields red children 0 and 2 under black 1, while the
reference insert that colour-flips on the way back up flips them black
and reddens the root: the two functions differ at this input, refuting
the claimed equality. -/
theorem c2_insert_flip_order_counterexample :
    insert (Node.node (1 : Int) false (Node.node 0 true Node.nil Node.nil) Node.nil) 2 ≠
      insertRef (Node.node (1 : Int) false (Node.node 0 true Node.nil Node.nil) Node.nil) 2 := by
  have h1 : insert (Node.node (1 : Int) false (Node.node 0 true Node.nil Node.nil) Node.nil) 2 =
      (Node.node 1 false (Node.node 0 true Node.nil Node.nil)
        (Node.node 2 true Node.nil Node.nil), true) := by
    norm_num [insert, insertRotation, isRed]
  have h2 : insertRef (Node.node (1 : Int) false (Node.node 0 true Node.nil Node.nil) Node.nil) 2 =
      (Node.node 1 true (Node.node 0 false Node.nil Node.nil)
        (Node.node 2 false Node.nil Node.nil), true) := by
    norm_num [insertRef, insertRotation, isRed, colorFlip, flipTop]
  rw [h1, h2]
  decide

/-- C3 (amended): on a binary-search-tree-ordered set, adding an element
already present returns `false` and leaves both `Len` and the traversal
unchanged; the second of two identical `Add` calls always returns
`false`; and adding the same element twice to a set NOT already
containing it changes `Len` by exactly one in total (for a set that
already contains the element the total change is zero, refuting the
claim's "any set"). -/
theorem c3_add_duplicate_noop [LinearOrder E] (s : SortedSet E) (x : E)
    (hb : bst s.root = true) :
    (x ∈ ToSlice s →
      (Add s x).2 = false ∧ Len (Add s x).1 = Len s ∧ ToSlice (Add s x).1 = ToSlice s) ∧
    (Add (Add s x).1 x).2 = false ∧
    (x ∉ ToSlice s → Len (Add (Add s x).1 x).1 = Len s + 1) := by
  obtain ⟨ha1, ha2, ha3⟩ := Add_spec s x
  have hmem2 : x ∈ (Add s x).1.root.toList := (mem_Add s x x).mpr (Or.inl rfl)
  have hb2 : bst (Add s x).1.root = true := bst_Add x hb
  have hflag2 : (Add (Add s x).1 x).2 = false := by
    rw [(Add_spec (Add s x).1 x).2.1]
    exact (insListSpec_of_mem hb2 hmem2).2
  refine ⟨?_, hflag2, ?_⟩
  · intro hx
    rw [ToSlice_eq] at hx
    obtain ⟨hl, hf⟩ := insListSpec_of_mem hb hx
    refine ⟨by rw [ha2, hf], ?_, ?_⟩
    · rw [Len, Len, ha3, hf]
      simp
    · rw [ToSlice_eq, ToSlice_eq, ha1, hl]
  · intro hx
    rw [ToSlice_eq] at hx
    have hf1 : insFlagSpec x s.root = true := insFlagSpec_of_not_mem hx
    have hs1 : (Add s x).1.size = s.size + 1 := by
      rw [ha3, hf1]
      simp
    have hs2 : (Add (Add s x).1 x).1.size = (Add s x).1.size := by
      rw [(Add_spec (Add s x).1 x).2.2,
        (insListSpec_of_mem hb2 hmem2).2]
      simp
    rw [Len, Len, hs2, hs1]

/-- C3 witness: the singleton set containing 5 satisfies the ordering
invariant, contains 5, and the theorem yields that adding 5 again
reports `false`. -/
theorem c3_add_duplicate_noop_witness :
    bst (SortedSet.mk (Node.node (5 : Int) false Node.nil Node.nil) 1).root = true ∧
      (5 : Int) ∈ ToSlice (SortedSet.mk (Node.node (5 : Int) false Node.nil Node.nil) 1) ∧
      (Add (SortedSet.mk (Node.node (5 : Int) false Node.nil Node.nil) 1) 5).2 = false :=
  ⟨by decide, by decide,
    ((c3_add_duplicate_noop (SortedSet.mk (Node.node (5 : Int) false Node.nil Node.nil) 1) 5
      (by decide)).1 (by decide)).1⟩

/-- C3 counterexample: for the set already containing 5 (built by
New [5]), adding 5 twice changes `Len` by zero in total, not by exactly
one as the claim asserts for any set. -/
theorem c3_add_twice_counterexample :
    ¬ (Len (Add (Add (New [(5 : Int)]) 5).1 5).1 = Len (New [(5 : Int)]) + 1) := by
  norm_num [New, Add, insert, insertRotation, isRed, Len]

/-- C4: deleting an element that is not in a binary-search-tree-ordered
set (the empty set included) returns `false` and leaves both `Len` and
the traversal sequence unchanged. -/
theorem c4_delete_absent_noop [LinearOrder E] [Inhabited E] (s : SortedSet E) (x : E)
    (hb : bst s.root = true) (hx : x ∉ ToSlice s) :
    (Delete s x).2 = false ∧ Len (Delete s x).1 = Len s ∧
      ToSlice (Delete s x).1 = ToSlice s := by
  rw [ToSlice_eq] at hx
  obtain ⟨h1, h2, h3⟩ := Delete_notMem s x hb hx
  exact ⟨h3, h2, by rw [ToSlice_eq, ToSlice_eq, h1]⟩

/-- C4 witness: deleting 5 from the two-element set {1, 2} reports
`false` and changes nothing. -/
theorem c4_delete_absent_noop_witness :
    bst (SortedSet.mk (Node.node (2 : Int) false (Node.node 1 true Node.nil Node.nil)
        Node.nil) 2).root = true ∧
      (5 : Int) ∉ ToSlice (SortedSet.mk (Node.node (2 : Int) false
        (Node.node 1 true Node.nil Node.nil) Node.nil) 2) ∧
      ((Delete (SortedSet.mk (Node.node (2 : Int) false (Node.node 1 true Node.nil Node.nil)
          Node.nil) 2) 5).2 = false ∧
        Len (Delete (SortedSet.mk (Node.node (2 : Int) false
          (Node.node 1 true Node.nil Node.nil) Node.nil) 2) 5).1 =
          Len (SortedSet.mk (Node.node (2 : Int) false (Node.node 1 true Node.nil Node.nil)
            Node.nil) 2) ∧
        ToSlice (Delete (SortedSet.mk (Node.node (2 : Int) false
          (Node.node 1 true Node.nil Node.nil) Node.nil) 2) 5).1 =
          ToSlice (SortedSet.mk (Node.node (2 : Int) false
            (Node.node 1 true Node.nil Node.nil) Node.nil) 2)) :=
  ⟨by decide, by decide,
    c4_delete_absent_noop (SortedSet.mk (Node.node (2 : Int) false
      (Node.node 1 true Node.nil Node.nil) Node.nil) 2) 5 (by decide) (by decide)⟩

/-- C5: inserting any finite sequence of pairwise-distinct elements into
an empty set and calling `ToSlice` produces exactly those elements
(a permutation of the input) in strictly ascending order. -/
theorem c5_new_toSlice_sorted [LinearOrder E] (xs : List E) (hnd : xs.Nodup) :
    (ToSlice (New xs)).Pairwise (· < ·) ∧ List.Perm (ToSlice (New xs)) xs := by
  obtain ⟨h1, h2⟩ := foldl_Add_invariant xs {} (by rfl) hnd (by simp)
  rw [show New xs = xs.foldl (fun sset element => (Add sset element).1) {} from rfl]
  rw [ToSlice_eq]
  exact ⟨bst_iff_pairwise.mp h1, by simpa using h2⟩

/-- C5 witness: inserting 3, 1, 2 yields the ascending traversal with
exactly those elements. -/
theorem c5_new_toSlice_sorted_witness :
    ([(3 : Int), 1, 2] : List Int).Nodup ∧
      ((ToSlice (New [(3 : Int), 1, 2])).Pairwise (· < ·) ∧
        List.Perm (ToSlice (New [(3 : Int), 1, 2])) [(3 : Int), 1, 2]) :=
  ⟨by decide, c5_new_toSlice_sorted [(3 : Int), 1, 2] (by decide)⟩

/-- C6: after any `Add` and after any `Delete`, the root node, if
present, is black (`isRed` is `false` on a nil root, so the statement
covers the empty result as well). -/
theorem c6_root_black_after_add_delete [LinearOrder E] [Inhabited E]
    (s : SortedSet E) (x : E) :
    isRed (Add s x).1.root = false ∧ isRed (Delete s x).1.root = false := by
  constructor
  · simp [Add]
  · by_cases h0 : s.root.isNil = true
    · simpa [Delete, h0] using isRed_false_of_isNil h0
    · by_cases h1 : (delete_ s.root x).1.isNil = true
      · simp [Delete, h0, h1, isRed_false_of_isNil h1]
      · simp [Delete, h0, h1]

/-- C8: the in-order walk behind `All` supports early termination.  For
every set, every consumer-state type, every consumer callback and every
starting state, instrumenting the walk to log each yielded element shows
it behaves exactly like the reference left-to-right scan of the in-order
element sequence that stops immediately after the first element on which
the consumer returns `false`: the final consumer state, the logged
elements and the continue flag all coincide, so no element is ever
yielded after the one on which the consumer stopped. -/
theorem c8_all_early_stop {σ : Type} (me : SortedSet E) (f : σ → E → σ × Bool) (s : σ) :
    all me.root (logger f) (s, []) =
      (((runSeq f s me.root.toList).1, (runSeq f s me.root.toList).2.2),
        (runSeq f s me.root.toList).2.1) := by
  simpa using all_logger me.root f s []

/-- C9: intersection is commutative: on binary-search-tree-ordered sets,
both intersection orders produce the identical ascending element
sequence. -/
theorem c9_intersection_comm [LinearOrder E] (A B : SortedSet E)
    (hA : bst A.root = true) (hB : bst B.root = true) :
    ToSlice (Intersection A B) = ToSlice (Intersection B A) := by
  obtain ⟨s1, m1⟩ := mem_Intersection A B hB
  obtain ⟨s2, m2⟩ := mem_Intersection B A hA
  rw [ToSlice_eq, ToSlice_eq]
  apply pairwise_ext (bst_iff_pairwise.mp s1) (bst_iff_pairwise.mp s2)
  intro y
  rw [m1 y, m2 y]
  tauto

/-- C9 witness: intersecting {1, 2} with {2, 3} in either order. -/
theorem c9_intersection_comm_witness :
    bst (SortedSet.mk (Node.node (2 : Int) false (Node.node 1 true Node.nil Node.nil)
        Node.nil) 2).root = true ∧
      bst (SortedSet.mk (Node.node (3 : Int) false (Node.node 2 true Node.nil Node.nil)
        Node.nil) 2).root = true ∧
      ToSlice (Intersection
          (SortedSet.mk (Node.node (2 : Int) false (Node.node 1 true Node.nil Node.nil)
            Node.nil) 2)
          (SortedSet.mk (Node.node (3 : Int) false (Node.node 2 true Node.nil Node.nil)
            Node.nil) 2)) =
        ToSlice (Intersection
          (SortedSet.mk (Node.node (3 : Int) false (Node.node 2 true Node.nil Node.nil)
            Node.nil) 2)
          (SortedSet.mk (Node.node (2 : Int) false (Node.node 1 true Node.nil Node.nil)
            Node.nil) 2)) :=
  ⟨by decide, by decide,
    c9_intersection_comm
      (SortedSet.mk (Node.node (2 : Int) false (Node.node 1 true Node.nil Node.nil)
        Node.nil) 2)
      (SortedSet.mk (Node.node (3 : Int) false (Node.node 2 true Node.nil Node.nil)
        Node.nil) 2)
      (by decide) (by decide)⟩

/-- C10: the recursive insertion helper never returns a nil root, for
every (possibly nil) subtree and every element; consequently the
unconditional `me.root.red = false` in `Add` never dereferences nil and
`Add` is total on every set and element. -/
theorem c10_insert_never_nil [LinearOrder E] (root : Node E) (element : E) (sz : Int) :
    (insert root element).1 ≠ Node.nil ∧
      (Add (SortedSet.mk root sz) element).1.root ≠ Node.nil := by
  refine ⟨ne_nil_of_isNil_false (isNil_insert root element), ?_⟩
  apply ne_nil_of_isNil_false
  simp only [Add]
  rw [isNil_setRed]
  exact isNil_insert root element



/-- C7: `String()` renders a brace-delimited, space-separated list of
the elements in ascending order, rendering each element with the
quoting verb exactly when the element type is textual (`isStr`
abstracts the Go type test `any(element).(string)`, and `fmtV`, `fmtQ`
the verbs `%v` and `%q`); the empty set renders as "\x7b\x7d". -/
theorem c7_string_rendering [LinearOrder E] (fmtV fmtQ : E → String) (isStr : Bool)
    (me : SortedSet E) (hb : bst me.root = true) :
    string fmtV fmtQ isStr me =
        "\x7b" ++ String.intercalate " "
          ((ToSlice me).map (if isStr then fmtQ else fmtV)) ++ "\x7d" ∧
      (ToSlice me).Pairwise (· < ·) ∧
      string fmtV fmtQ isStr ({} : SortedSet E) = "\x7b\x7d" := by
  refine ⟨string_eq_intercalate fmtV fmtQ isStr me, ?_, ?_⟩
  · rw [ToSlice_eq]
    exact bst_iff_pairwise.mp hb
  · rfl

/-- C7 witness: the integer set {1, 2} with the plain rendering verb. -/
theorem c7_string_rendering_witness :
    bst (SortedSet.mk (Node.node (2 : Int) false (Node.node 1 true Node.nil Node.nil)
        Node.nil) 2).root = true ∧
      (string (fun n : Int => toString n) (fun n : Int => toString n) false
          (SortedSet.mk (Node.node (2 : Int) false (Node.node 1 true Node.nil Node.nil)
            Node.nil) 2) =
          "\x7b" ++ String.intercalate " "
            ((ToSlice (SortedSet.mk (Node.node (2 : Int) false
              (Node.node 1 true Node.nil Node.nil) Node.nil) 2)).map
              (if false then (fun n : Int => toString n) else (fun n : Int => toString n)))
            ++ "\x7d" ∧
        (ToSlice (SortedSet.mk (Node.node (2 : Int) false
          (Node.node 1 true Node.nil Node.nil) Node.nil) 2)).Pairwise (· < ·) ∧
        string (fun n : Int => toString n) (fun n : Int => toString n) false
          ({} : SortedSet Int) = "\x7b\x7d") :=
  ⟨by decide,
    c7_string_rendering (fun n : Int => toString n) (fun n : Int => toString n) false
      (SortedSet.mk (Node.node (2 : Int) false (Node.node 1 true Node.nil Node.nil)
        Node.nil) 2) (by decide)⟩

/-- C1: the invariant fails on the code.  Applying Add 0, Add 1, Add 3,
Add 2, Add 4, Delete 5, Delete 1 to an initially empty set leaves a set
whose traversal yields [0, 2, 4] — element 3 has been silently lost by
the second delete — while `Len` reports 4: the reported size does not
equal the number of elements the traversal yields. -/
theorem c1_len_ne_traversal_length_code_bug :
    Node.toList (applyOps [Op.add (0 : Int), Op.add 1, Op.add 3, Op.add 2, Op.add 4,
        Op.del 5, Op.del 1]).root = [0, 2, 4] ∧
      (applyOps [Op.add (0 : Int), Op.add 1, Op.add 3, Op.add 2, Op.add 4,
        Op.del 5, Op.del 1]).size = 4 ∧
      (applyOps [Op.add (0 : Int), Op.add 1, Op.add 3, Op.add 2, Op.add 4,
        Op.del 5, Op.del 1]).size ≠
        ((Node.toList (applyOps [Op.add (0 : Int), Op.add 1, Op.add 3, Op.add 2, Op.add 4,
          Op.del 5, Op.del 1]).root).length : Int) := by
  have h : applyOps [Op.add (0 : Int), Op.add 1, Op.add 3, Op.add 2, Op.add 4,
      Op.del 5, Op.del 1] =
      SortedSet.mk (Node.node 2 false (Node.node 0 false Node.nil Node.nil)
        (Node.node 4 false Node.nil Node.nil)) 4 := by
    norm_num [applyOps, applyOp, Add, Delete, insert, delete_, deleteRight, deleteMinimum,
      first, moveRedLeft, moveRedRight, fixUp, insertRotation, rotateLeft, rotateRight,
      colorFlip, flipTop, isRed]
    decide
  rw [h]
  refine ⟨rfl, rfl, by decide⟩

end Sortedset
